import Mathlib

/-!
Verification of the FlightDataAccessor time-series decimation engine and the
format-compatibility dispatcher.

The repository ships the decimation engine's test suite
(`tests/datatypes/downsample_test.py`) while the engine module itself
(`flightdataaccessor/datatypes/downsample.py`) is not part of the sources at
hand; the engine is therefore modelled from the design document (spec.md,
sections 3, 4, 6, 7 and 8).  The `open` dispatcher of
`flightdataaccessor/formats/compatibility.py` is embedded directly from its
source.
-/

namespace FDA

/-- Error kinds of the decimation engine (spec section 7). -/
inductive DownsampleError where
  | invalidWidth
  | insufficientData
  | unmappedCode
  deriving DecidableEq

/-- Modelled from the spec: enumeration of a bucket's present samples together
with their position, the `downsample` module being absent from the sources.
A sample is `Option`-valued: `some v` is a present sample of value `v`,
`none` a missing (masked) one (spec sections 3 and 4.2). -/
def presentIdxAux (i : Nat) : List (Option α) → List (Nat × α)
  | [] => []
  | none :: t => presentIdxAux (i + 1) t
  | some v :: t => (i, v) :: presentIdxAux (i + 1) t

/-- Present samples of a bucket with their indices, starting at position 0. -/
def presentIdx (b : List (Option α)) : List (Nat × α) := presentIdxAux 0 b

/-- Modelled from the spec: the present sample of minimal value; when several
samples share the minimal value the earliest-occurring one is kept
(spec section 4.3, tie-break rule). -/
def argMinBy : List (Nat × Int) → Option (Nat × Int)
  | [] => none
  | p :: l =>
    match argMinBy l with
    | none => some p
    | some q => if q.2 < p.2 then some q else some p

/-- Modelled from the spec: the present sample of maximal value; when several
samples share the maximal value the earliest-occurring one is kept. -/
def argMaxBy : List (Nat × Int) → Option (Nat × Int)
  | [] => none
  | p :: l =>
    match argMaxBy l with
    | none => some p
    | some q => if p.2 < q.2 then some q else some p

/-- The two extreme samples ordered by the index at which each occurs:
whichever extreme appears earliest in the bucket is emitted first
(spec section 4.3). -/
def orderPair (pmin pmax : Nat × Int) : List (Option Int) :=
  if pmax.1 < pmin.1 then [some pmax.2, some pmin.2] else [some pmin.2, some pmax.2]

/-- Modelled from the spec: the Numeric Extremum Reducer of section 4.3.
A fully missing bucket contributes two missing markers (section 4.2). -/
def reduceNumericBucket (b : List (Option Int)) : List (Option Int) :=
  match argMinBy (presentIdx b), argMaxBy (presentIdx b) with
  | some pmin, some pmax => orderPair pmin pmax
  | _, _ => [none, none]

/-- Modelled from the spec: most frequent label of a list, ties resolved in
favour of the label of the earliest-occurring sample among the tied labels
(spec section 4.4). -/
def mostCommon [BEq α] (l : List α) : Option α :=
  l.find? fun x => l.all fun y => decide (l.count y ≤ l.count x)

/-- Modelled from the spec: the Categorical Mode Reducer of section 4.4.
Both output slots carry the winning label; a fully missing bucket contributes
two missing markers. -/
def reduceCategoricalBucket [BEq α] (b : List (Option α)) : List (Option α) :=
  match mostCommon (b.filterMap id) with
  | some m => [some m, some m]
  | none => [none, none]

/-- Modelled from the spec: start offset of bucket `i` when a sequence of
length `N` is split into `B` buckets; remainder elements are distributed so
that no bucket differs in size by more than one element (spec section 3,
Bucket, and section 4.1). -/
def bucketStart (N B i : Nat) : Nat := i * (N / B) + min i (N % B)

/-- Modelled from the spec: size of bucket `i`, either `⌊N/B⌋` or `⌈N/B⌉`. -/
def bucketSize (N B i : Nat) : Nat := N / B + if i < N % B then 1 else 0

/-- The contiguous slice of the sequence forming bucket `i`. -/
def bucketOf (s : List (Option α)) (B i : Nat) : List (Option α) :=
  (s.drop (bucketStart s.length B i)).take (bucketSize s.length B i)

/-- Modelled from the spec: the decimation pipeline, parameterised by the
per-bucket reducer.  A zero-length sequence yields a zero-length result
regardless of requested width (spec section 3, Sequence invariant); a width
that is not a positive even number signals `invalidWidth`; a sequence shorter
than `W/2` signals `insufficientData` (spec sections 4.1 and 7); otherwise the
`W/2` buckets are reduced and concatenated. -/
def decimateWith (red : List (Option α) → List (Option α))
    (s : List (Option α)) (w : Nat) : Except DownsampleError (List (Option α)) :=
  if s.length = 0 then .ok []
  else if w = 0 ∨ w % 2 ≠ 0 then .error .invalidWidth
  else if s.length < w / 2 then .error .insufficientData
  else .ok (((List.range (w / 2)).map fun i => red (bucketOf s (w / 2) i)).flatten)

/-- Modelled from the spec: `decimate(sequence, width)`, the numeric path of
the engine (spec section 6). -/
def decimate (s : List (Option Int)) (w : Nat) : Except DownsampleError (List (Option Int)) :=
  decimateWith reduceNumericBucket s w

/-- Modelled from the spec: `decimate_categorical`, the categorical path on
direct labels (spec section 6). -/
def decimateCategorical [BEq α] (s : List (Option α)) (w : Nat) :
    Except DownsampleError (List (Option α)) :=
  decimateWith reduceCategoricalBucket s w

/-- Output values of the auto-detecting entry point: numbers or labels. -/
inductive Val where
  | num (n : Int)
  | str (s : String)
  deriving DecidableEq

/-- Input shapes the Dispatcher distinguishes (spec section 4.5): plain
numeric sequences, label sequences, and integer codes backed by a
code-to-label mapping. -/
inductive SeqData where
  | numeric (s : List (Option Int))
  | labels (s : List (Option String))
  | mapped (s : List (Option Int)) (mapping : Int → Option String)

/-- Whether the Dispatcher classifies the input as categorical: labels, or
integer codes accompanied by a label mapping (spec section 4.5). -/
def isCategoricalKind : SeqData → Bool
  | .numeric _ => false
  | .labels _ => true
  | .mapped _ _ => true

/-- Modelled from the spec: resolution of integer codes through the supplied
code-to-label table; a code with no entry signals `unmappedCode`
(spec section 4.4). -/
def resolveCodes (m : Int → Option String) :
    List (Option Int) → Except DownsampleError (List (Option String))
  | [] => .ok []
  | none :: t => (resolveCodes m t).map fun r => none :: r
  | some c :: t =>
    match m c with
    | none => .error .unmappedCode
    | some lab => (resolveCodes m t).map fun r => some lab :: r

/-- Modelled from the spec: the auto-detecting entry point `downsample`.
Numeric sequences are routed to the Numeric Reducer; label sequences and
mapped integer codes are routed to the Categorical Reducer
(spec section 4.5). -/
def downsample : SeqData → Nat → Except DownsampleError (List (Option Val))
  | .numeric s, w =>
    (decimateWith reduceNumericBucket s w).map fun o => o.map (Option.map Val.num)
  | .labels s, w =>
    (decimateWith reduceCategoricalBucket s w).map fun o => o.map (Option.map Val.str)
  | .mapped s m, w =>
    (resolveCodes m s).bind fun ls =>
      (decimateWith reduceCategoricalBucket ls w).map fun o => o.map (Option.map Val.str)

/-- Modelled from the spec: `downsample_most_common_value`, the explicit
categorical entry point, forcing categorical reduction regardless of the
inferred element kind (spec section 4.5). -/
def downsample_most_common_value : SeqData → Nat → Except DownsampleError (List (Option Val))
  | .numeric s, w =>
    (decimateWith reduceCategoricalBucket s w).map fun o => o.map (Option.map Val.num)
  | .labels s, w =>
    (decimateWith reduceCategoricalBucket s w).map fun o => o.map (Option.map Val.str)
  | .mapped s m, w =>
    (resolveCodes m s).bind fun ls =>
      (decimateWith reduceCategoricalBucket ls w).map fun o => o.map (Option.map Val.str)

/-- The pair of output slots belonging to bucket `j` of an output sequence. -/
def outPair (l : List (Option α)) (j : Nat) : List (Option α) :=
  (l.drop (2 * j)).take 2

deriving instance DecidableEq for Except

theorem presentIdxAux_mem_le {t : List (Option α)} :
    ∀ {i : Nat} {p : Nat × α}, p ∈ presentIdxAux i t → i ≤ p.1 := by
  induction t with
  | nil => intro i p h; simp [presentIdxAux] at h
  | cons o t ih =>
    intro i p h
    cases o with
    | none =>
      rw [presentIdxAux] at h
      exact Nat.le_of_succ_le (ih h)
    | some v =>
      rw [presentIdxAux] at h
      rcases List.mem_cons.mp h with h | h
      · subst h; exact Nat.le_refl i
      · exact Nat.le_of_succ_le (ih h)

theorem presentIdxAux_pairwise (t : List (Option α)) :
    ∀ i, (presentIdxAux i t).Pairwise fun p q => p.1 < q.1 := by
  induction t with
  | nil => intro i; simp [presentIdxAux]
  | cons o t ih =>
    intro i
    cases o with
    | none => rw [presentIdxAux]; exact ih (i + 1)
    | some v =>
      rw [presentIdxAux]
      refine List.Pairwise.cons ?_ (ih (i + 1))
      intro q hq
      exact Nat.lt_of_lt_of_le (Nat.lt_succ_self i) (presentIdxAux_mem_le hq)

theorem presentIdx_pairwise (b : List (Option α)) :
    (presentIdx b).Pairwise fun p q => p.1 < q.1 :=
  presentIdxAux_pairwise b 0

theorem presentIdxAux_map_snd (t : List (Option α)) :
    ∀ i, (presentIdxAux i t).map Prod.snd = t.filterMap id := by
  induction t with
  | nil => intro i; rfl
  | cons o t ih =>
    intro i
    cases o with
    | none => rw [presentIdxAux]; simpa [List.filterMap_cons] using ih (i + 1)
    | some v => rw [presentIdxAux]; simp [List.filterMap_cons, ih (i + 1)]

theorem presentIdx_map_snd (b : List (Option α)) :
    (presentIdx b).map Prod.snd = b.filterMap id :=
  presentIdxAux_map_snd b 0

theorem presentIdx_eq_nil_iff (b : List (Option α)) :
    presentIdx b = [] ↔ b.filterMap id = [] := by
  constructor
  · intro h
    rw [← presentIdx_map_snd, h]
    rfl
  · intro h
    have hm := presentIdx_map_snd b
    rw [h] at hm
    exact List.map_eq_nil_iff.mp hm

theorem snd_mem_of_mem_presentIdx {b : List (Option α)} {p : Nat × α}
    (h : p ∈ presentIdx b) : p.2 ∈ b.filterMap id := by
  rw [← presentIdx_map_snd]
  exact List.mem_map_of_mem Prod.snd h

theorem exists_presentIdx_of_val {b : List (Option α)} {v : α}
    (h : v ∈ b.filterMap id) : ∃ p ∈ presentIdx b, p.2 = v := by
  rw [← presentIdx_map_snd] at h
  exact List.exists_of_mem_map h

theorem argMinBy_eq_none_iff : ∀ {l : List (Nat × Int)}, argMinBy l = none ↔ l = [] := by
  intro l
  cases l with
  | nil => simp [argMinBy]
  | cons p l =>
    constructor
    · intro h
      rw [argMinBy] at h
      split at h
      · exact Option.noConfusion h
      · split at h <;> exact Option.noConfusion h
    · intro h
      exact absurd h (List.cons_ne_nil p l)

theorem argMinBy_isSome {l : List (Nat × Int)} (h : l ≠ []) :
    ∃ q, argMinBy l = some q := by
  cases hq : argMinBy l with
  | none => exact absurd (argMinBy_eq_none_iff.mp hq) h
  | some q => exact ⟨q, rfl⟩

theorem argMinBy_mem : ∀ {l : List (Nat × Int)} {q}, argMinBy l = some q → q ∈ l := by
  intro l
  induction l with
  | nil => intro q h; simp [argMinBy] at h
  | cons p l ih =>
    intro q h
    rw [argMinBy] at h
    split at h
    · cases h
      exact List.mem_cons_self _ _
    · rename_i q' hl
      split at h
      · cases h
        exact List.mem_cons_of_mem _ (ih hl)
      · cases h
        exact List.mem_cons_self _ _

theorem argMinBy_le : ∀ {l : List (Nat × Int)} {q}, argMinBy l = some q →
    ∀ p ∈ l, q.2 ≤ p.2 := by
  intro l
  induction l with
  | nil => intro q h; simp [argMinBy] at h
  | cons p l ih =>
    intro q h x hx
    rw [argMinBy] at h
    split at h
    · rename_i hl
      cases h
      rcases List.mem_cons.mp hx with hx | hx
      · subst hx; exact le_refl _
      · rw [argMinBy_eq_none_iff.mp hl] at hx; simp at hx
    · rename_i q' hl
      split at h
      · rename_i hc
        cases h
        rcases List.mem_cons.mp hx with hx | hx
        · subst hx; exact le_of_lt hc
        · exact ih hl x hx
      · rename_i hc
        cases h
        rcases List.mem_cons.mp hx with hx | hx
        · subst hx; exact le_refl _
        · exact le_trans (le_of_not_lt hc) (ih hl x hx)

theorem argMinBy_earliest : ∀ {l : List (Nat × Int)} {q},
    l.Pairwise (fun a b => a.1 < b.1) → argMinBy l = some q →
    ∀ p ∈ l, p.2 = q.2 → q.1 ≤ p.1 := by
  intro l
  induction l with
  | nil => intro q _ h; simp [argMinBy] at h
  | cons p l ih =>
    intro q hpw h x hx hval
    rcases List.pairwise_cons.mp hpw with ⟨hp, hpw'⟩
    rw [argMinBy] at h
    split at h
    · rename_i hl
      cases h
      rcases List.mem_cons.mp hx with hx | hx
      · subst hx; exact le_refl _
      · rw [argMinBy_eq_none_iff.mp hl] at hx; simp at hx
    · rename_i q' hl
      split at h
      · rename_i hc
        cases h
        rcases List.mem_cons.mp hx with hx | hx
        · subst hx; exact absurd (hval ▸ hc) (lt_irrefl _)
        · exact ih hpw' hl x hx hval
      · cases h
        rcases List.mem_cons.mp hx with hx | hx
        · subst hx; exact le_refl _
        · exact le_of_lt (hp x hx)

theorem argMaxBy_eq_none_iff : ∀ {l : List (Nat × Int)}, argMaxBy l = none ↔ l = [] := by
  intro l
  cases l with
  | nil => simp [argMaxBy]
  | cons p l =>
    constructor
    · intro h
      rw [argMaxBy] at h
      split at h
      · exact Option.noConfusion h
      · split at h <;> exact Option.noConfusion h
    · intro h
      exact absurd h (List.cons_ne_nil p l)

theorem argMaxBy_isSome {l : List (Nat × Int)} (h : l ≠ []) :
    ∃ q, argMaxBy l = some q := by
  cases hq : argMaxBy l with
  | none => exact absurd (argMaxBy_eq_none_iff.mp hq) h
  | some q => exact ⟨q, rfl⟩

theorem argMaxBy_mem : ∀ {l : List (Nat × Int)} {q}, argMaxBy l = some q → q ∈ l := by
  intro l
  induction l with
  | nil => intro q h; simp [argMaxBy] at h
  | cons p l ih =>
    intro q h
    rw [argMaxBy] at h
    split at h
    · cases h
      exact List.mem_cons_self _ _
    · rename_i q' hl
      split at h
      · cases h
        exact List.mem_cons_of_mem _ (ih hl)
      · cases h
        exact List.mem_cons_self _ _

theorem argMaxBy_ge : ∀ {l : List (Nat × Int)} {q}, argMaxBy l = some q →
    ∀ p ∈ l, p.2 ≤ q.2 := by
  intro l
  induction l with
  | nil => intro q h; simp [argMaxBy] at h
  | cons p l ih =>
    intro q h x hx
    rw [argMaxBy] at h
    split at h
    · rename_i hl
      cases h
      rcases List.mem_cons.mp hx with hx | hx
      · subst hx; exact le_refl _
      · rw [argMaxBy_eq_none_iff.mp hl] at hx; simp at hx
    · rename_i q' hl
      split at h
      · rename_i hc
        cases h
        rcases List.mem_cons.mp hx with hx | hx
        · subst hx; exact le_of_lt hc
        · exact ih hl x hx
      · rename_i hc
        cases h
        rcases List.mem_cons.mp hx with hx | hx
        · subst hx; exact le_refl _
        · exact le_trans (ih hl x hx) (le_of_not_lt hc)

theorem argMaxBy_earliest : ∀ {l : List (Nat × Int)} {q},
    l.Pairwise (fun a b => a.1 < b.1) → argMaxBy l = some q →
    ∀ p ∈ l, p.2 = q.2 → q.1 ≤ p.1 := by
  intro l
  induction l with
  | nil => intro q _ h; simp [argMaxBy] at h
  | cons p l ih =>
    intro q hpw h x hx hval
    rcases List.pairwise_cons.mp hpw with ⟨hp, hpw'⟩
    rw [argMaxBy] at h
    split at h
    · rename_i hl
      cases h
      rcases List.mem_cons.mp hx with hx | hx
      · subst hx; exact le_refl _
      · rw [argMaxBy_eq_none_iff.mp hl] at hx; simp at hx
    · rename_i q' hl
      split at h
      · rename_i hc
        cases h
        rcases List.mem_cons.mp hx with hx | hx
        · subst hx; exact absurd (hval ▸ hc) (lt_irrefl _)
        · exact ih hpw' hl x hx hval
      · cases h
        rcases List.mem_cons.mp hx with hx | hx
        · subst hx; exact le_refl _
        · exact le_of_lt (hp x hx)

theorem orderPair_length (a b : Nat × Int) : (orderPair a b).length = 2 := by
  unfold orderPair; split <;> rfl

theorem reduceNumericBucket_length (b : List (Option Int)) :
    (reduceNumericBucket b).length = 2 := by
  unfold reduceNumericBucket
  cases argMinBy (presentIdx b) <;> cases argMaxBy (presentIdx b) <;>
    simp [orderPair_length]

theorem reduceNumericBucket_of_empty {b : List (Option Int)}
    (h : presentIdx b = []) : reduceNumericBucket b = [none, none] := by
  unfold reduceNumericBucket
  rw [h]
  rfl

theorem reduceNumericBucket_of_present {b : List (Option Int)}
    (h : presentIdx b ≠ []) :
    ∃ pmin pmax, argMinBy (presentIdx b) = some pmin ∧
      argMaxBy (presentIdx b) = some pmax ∧
      reduceNumericBucket b = orderPair pmin pmax := by
  obtain ⟨pmin, hmin⟩ := argMinBy_isSome h
  obtain ⟨pmax, hmax⟩ := argMaxBy_isSome h
  refine ⟨pmin, pmax, hmin, hmax, ?_⟩
  unfold reduceNumericBucket
  rw [hmin, hmax]

theorem orderPair_mem_isSome {a b : Nat × Int} {o : Option Int}
    (h : o ∈ orderPair a b) : o ≠ none := by
  unfold orderPair at h
  split at h <;> rcases List.mem_cons.mp h with h | h <;>
    first
      | (subst h; exact Option.noConfusion)
      | (rcases List.mem_cons.mp h with h | h
         · subst h; exact Option.noConfusion
         · simp at h)

theorem exists_count_argmax : ∀ (l : List α) (f : α → Nat), l ≠ [] →
    ∃ a ∈ l, ∀ b ∈ l, f b ≤ f a := by
  intro l f
  induction l with
  | nil => intro h; exact absurd rfl h
  | cons a t ih =>
    intro _
    cases t with
    | nil =>
      refine ⟨a, List.mem_cons_self _ _, ?_⟩
      intro b hb
      rcases List.mem_cons.mp hb with hb | hb
      · subst hb; exact le_refl _
      · simp at hb
    | cons c u =>
      obtain ⟨m, hm, hmax⟩ := ih (List.cons_ne_nil c u)
      by_cases hc : f a ≤ f m
      · refine ⟨m, List.mem_cons_of_mem _ hm, ?_⟩
        intro b hb
        rcases List.mem_cons.mp hb with hb | hb
        · subst hb; exact hc
        · exact hmax b hb
      · refine ⟨a, List.mem_cons_self _ _, ?_⟩
        intro b hb
        rcases List.mem_cons.mp hb with hb | hb
        · subst hb; exact le_refl _
        · exact le_trans (hmax b hb) (le_of_not_le hc)

theorem mostCommon_isSome [BEq α] {l : List α} (h : l ≠ []) :
    ∃ m, mostCommon l = some m := by
  obtain ⟨a, ha, hmax⟩ := exists_count_argmax l (fun y => l.count y) h
  have hp : (l.all fun y => decide (l.count y ≤ l.count a)) = true :=
    List.all_eq_true.mpr fun y hy => decide_eq_true (hmax y hy)
  have hs : (l.find? fun x => l.all fun y => decide (l.count y ≤ l.count x)).isSome :=
    List.find?_isSome.mpr ⟨a, ha, hp⟩
  exact Option.isSome_iff_exists.mp hs

theorem mostCommon_spec [BEq α] {l : List α} {m : α} (h : mostCommon l = some m) :
    m ∈ l ∧ (∀ y ∈ l, l.count y ≤ l.count m) ∧
      ∃ pre post, l = pre ++ m :: post ∧ ∀ a ∈ pre, l.count a < l.count m := by
  unfold mostCommon at h
  have hmem := List.mem_of_find?_eq_some h
  rcases List.find?_eq_some.mp h with ⟨hpm, pre, post, hsplit, hpre⟩
  refine ⟨hmem, ?_, pre, post, hsplit, ?_⟩
  · intro y hy
    exact of_decide_eq_true (List.all_eq_true.mp hpm y hy)
  · intro a hapre
    have hfa : (l.all fun y => decide (l.count y ≤ l.count a)) = false := by
      have := hpre a hapre
      simpa using this
    obtain ⟨y, hy, hny⟩ := List.all_eq_false.mp hfa
    have hya : l.count a < l.count y := by simpa using hny
    exact lt_of_lt_of_le hya (of_decide_eq_true (List.all_eq_true.mp hpm y hy))

theorem reduceCategoricalBucket_length [BEq α] (b : List (Option α)) :
    (reduceCategoricalBucket b).length = 2 := by
  unfold reduceCategoricalBucket
  cases mostCommon (b.filterMap id) <;> rfl

theorem reduceCategoricalBucket_of_empty [BEq α] {b : List (Option α)}
    (h : b.filterMap id = []) : reduceCategoricalBucket b = [none, none] := by
  unfold reduceCategoricalBucket
  rw [h]
  rfl

theorem reduceCategoricalBucket_of_present [BEq α] {b : List (Option α)}
    (h : b.filterMap id ≠ []) :
    ∃ m, mostCommon (b.filterMap id) = some m ∧
      reduceCategoricalBucket b = [some m, some m] := by
  obtain ⟨m, hm⟩ := mostCommon_isSome h
  refine ⟨m, hm, ?_⟩
  unfold reduceCategoricalBucket
  rw [hm]

theorem bucketStart_zero (N B : Nat) : bucketStart N B 0 = 0 := by
  simp [bucketStart]

theorem bucketStart_succ (N B i : Nat) :
    bucketStart N B (i + 1) = bucketStart N B i + bucketSize N B i := by
  unfold bucketStart bucketSize
  rcases Nat.lt_or_ge i (N % B) with hc | hc
  · rw [if_pos hc, Nat.min_eq_left hc, Nat.min_eq_left (le_of_lt hc)]
    simp only [Nat.succ_eq_add_one]
    ring
  · rw [if_neg (not_lt.mpr hc), Nat.min_eq_right hc,
      Nat.min_eq_right (le_trans hc (Nat.le_succ i))]
    ring

theorem bucketStart_last (N B : Nat) (hB : 0 < B) : bucketStart N B B = N := by
  unfold bucketStart
  rw [Nat.min_eq_right (le_of_lt (Nat.mod_lt N hB))]
  exact Nat.div_add_mod N B

theorem ceil_div_of_mod_pos {N B : Nat} (hB : 0 < B) (hr : 0 < N % B) :
    (N + B - 1) / B = N / B + 1 := by
  have h1 : B * (N / B) + N % B = N := Nat.div_add_mod N B
  have hrB : N % B < B := Nat.mod_lt N hB
  have h2 : N + B - 1 = (N % B + B - 1) + B * (N / B) := by omega
  rw [h2, Nat.add_mul_div_left _ _ hB]
  have h3 : (N % B + B - 1) / B = 1 := by
    apply Nat.div_eq_of_lt_le
    · omega
    · omega
  omega

theorem bucketSize_floor_or_ceil (N B i : Nat) (hB : 0 < B) :
    bucketSize N B i = N / B ∨ bucketSize N B i = (N + B - 1) / B := by
  unfold bucketSize
  by_cases hc : i < N % B
  · right
    rw [if_pos hc, ceil_div_of_mod_pos hB (Nat.lt_of_le_of_lt (Nat.zero_le i) hc)]
  · left
    rw [if_neg hc]
    exact Nat.add_zero _

theorem bucketSize_balanced (N B i j : Nat) :
    bucketSize N B i ≤ bucketSize N B j + 1 := by
  unfold bucketSize
  split <;> split <;> omega

/-- C5: for a sequence of length N and positive even width W with N at least
W/2 buckets, the partitioner yields exactly W/2 contiguous buckets starting
at 0, each starting where the previous one ends, jointly ending at N, every
bucket of size floor(N/(W/2)) or ceil(N/(W/2)), and no two bucket sizes
differing by more than one. -/
theorem C5_bucket_partition (N W : Nat) (h0 : 0 < W) (h2 : W % 2 = 0) (hN : W / 2 ≤ N) :
    bucketStart N (W / 2) 0 = 0 ∧
    (∀ i, i < W / 2 →
      bucketStart N (W / 2) (i + 1) = bucketStart N (W / 2) i + bucketSize N (W / 2) i) ∧
    bucketStart N (W / 2) (W / 2) = N ∧
    (∀ i, i < W / 2 →
      bucketSize N (W / 2) i = N / (W / 2) ∨
      bucketSize N (W / 2) i = (N + W / 2 - 1) / (W / 2)) ∧
    (∀ i j, i < W / 2 → j < W / 2 →
      bucketSize N (W / 2) i ≤ bucketSize N (W / 2) j + 1) := by
  have hB : 0 < W / 2 := by omega
  refine ⟨bucketStart_zero N (W / 2), ?_, bucketStart_last N (W / 2) hB, ?_, ?_⟩
  · intro i _
    exact bucketStart_succ N (W / 2) i
  · intro i _
    exact bucketSize_floor_or_ceil N (W / 2) i hB
  · intro i j _ _
    exact bucketSize_balanced N (W / 2) i j

/-- C5 witness: a sequence of length 5 split for width 4, that is two buckets
of sizes 3 and 2. -/
theorem C5_bucket_partition_witness :
    (0 < 4 ∧ 4 % 2 = 0 ∧ 4 / 2 ≤ 5) ∧
    (bucketStart 5 (4 / 2) 0 = 0 ∧
     (∀ i, i < 4 / 2 →
       bucketStart 5 (4 / 2) (i + 1) = bucketStart 5 (4 / 2) i + bucketSize 5 (4 / 2) i) ∧
     bucketStart 5 (4 / 2) (4 / 2) = 5 ∧
     (∀ i, i < 4 / 2 →
       bucketSize 5 (4 / 2) i = 5 / (4 / 2) ∨
       bucketSize 5 (4 / 2) i = (5 + 4 / 2 - 1) / (4 / 2)) ∧
     (∀ i j, i < 4 / 2 → j < 4 / 2 →
       bucketSize 5 (4 / 2) i ≤ bucketSize 5 (4 / 2) j + 1)) :=
  ⟨⟨by decide, by decide, by decide⟩,
    C5_bucket_partition 5 4 (by decide) (by decide) (by decide)⟩

/-- C3: for every bucket and both reducers, the bucket's two output slots are
missing markers exactly when the bucket has no present sample; a bucket with a
present sample never contributes a missing marker. -/
theorem C3_missing_slots_iff_fully_missing (b : List (Option Int)) (c : List (Option String)) :
    (b.filterMap id = [] → reduceNumericBucket b = [none, none]) ∧
    (b.filterMap id ≠ [] → ∀ o ∈ reduceNumericBucket b, o ≠ none) ∧
    (c.filterMap id = [] → reduceCategoricalBucket c = [none, none]) ∧
    (c.filterMap id ≠ [] → ∀ o ∈ reduceCategoricalBucket c, o ≠ none) := by
  refine ⟨?_, ?_, ?_, ?_⟩
  · intro h
    exact reduceNumericBucket_of_empty ((presentIdx_eq_nil_iff b).mpr h)
  · intro h o ho
    have hp : presentIdx b ≠ [] := fun hn => h ((presentIdx_eq_nil_iff b).mp hn)
    obtain ⟨pmin, pmax, _, _, hred⟩ := reduceNumericBucket_of_present hp
    rw [hred] at ho
    exact orderPair_mem_isSome ho
  · intro h
    exact reduceCategoricalBucket_of_empty h
  · intro h o ho
    obtain ⟨m, _, hred⟩ := reduceCategoricalBucket_of_present h
    rw [hred] at ho
    rcases List.mem_cons.mp ho with ho | ho
    · subst ho; exact Option.noConfusion
    · rcases List.mem_cons.mp ho with ho | ho
      · subst ho; exact Option.noConfusion
      · simp at ho

/-- C3 witness: evaluation at a fully-missing numeric bucket and a
half-present categorical bucket. -/
theorem C3_missing_slots_iff_fully_missing_witness :
    (([none, none] : List (Option Int)).filterMap id = [] →
      reduceNumericBucket [none, none] = [none, none]) ∧
    (([none, none] : List (Option Int)).filterMap id ≠ [] →
      ∀ o ∈ reduceNumericBucket [none, none], o ≠ none) ∧
    (([some "a", none] : List (Option String)).filterMap id = [] →
      reduceCategoricalBucket [some "a", none] = [none, none]) ∧
    (([some "a", none] : List (Option String)).filterMap id ≠ [] →
      ∀ o ∈ reduceCategoricalBucket [some "a", none], o ≠ none) :=
  C3_missing_slots_iff_fully_missing [none, none] [some "a", none]

theorem decimateWith_eq_ok {red : List (Option α) → List (Option α)}
    {s : List (Option α)} {w : Nat}
    (h0 : 0 < w) (h2 : w % 2 = 0) (hlen : w / 2 ≤ s.length) :
    decimateWith red s w =
      .ok (((List.range (w / 2)).map fun i => red (bucketOf s (w / 2) i)).flatten) := by
  unfold decimateWith
  rw [if_neg (by omega : ¬ s.length = 0),
    if_neg (by omega : ¬ (w = 0 ∨ w % 2 ≠ 0)),
    if_neg (not_lt.mpr hlen)]

theorem length_flatten_two {f : Nat → List (Option α)} (hf : ∀ i, (f i).length = 2) :
    ∀ n, (((List.range n).map f).flatten).length = 2 * n := by
  intro n
  induction n with
  | zero => rfl
  | succ n ih =>
    rw [List.range_succ, List.map_append, List.flatten_append, List.length_append, ih]
    have h2 := hf n
    simp only [List.map_cons, List.map_nil, List.flatten_cons, List.flatten_nil,
      List.append_nil, h2]
    omega

/-- C1: for every sequence (numeric or categorical) and every positive even
width W with at least W/2 elements, decimation returns an output sequence of
length exactly W. -/
theorem C1_output_length (s : List (Option Int)) (c : List (Option String)) (w : Nat)
    (h0 : 0 < w) (h2 : w % 2 = 0) (hs : w / 2 ≤ s.length) (hc : w / 2 ≤ c.length) :
    (∃ o, decimate s w = .ok o ∧ o.length = w) ∧
    (∃ o, decimateCategorical c w = .ok o ∧ o.length = w) := by
  constructor
  · refine ⟨_, decimateWith_eq_ok h0 h2 hs, ?_⟩
    exact (length_flatten_two (fun i => reduceNumericBucket_length _) (w / 2)).trans (by omega)
  · refine ⟨_, decimateWith_eq_ok h0 h2 hc, ?_⟩
    exact (length_flatten_two (fun i => reduceCategoricalBucket_length _) (w / 2)).trans
      (by omega)

/-- C1 witness: two-sample sequences decimated to width 4. -/
theorem C1_output_length_witness :
    (0 < 4 ∧ 4 % 2 = 0 ∧ 4 / 2 ≤ ([some 7, some 3] : List (Option Int)).length ∧
      4 / 2 ≤ ([some "a", some "b"] : List (Option String)).length) ∧
    ((∃ o, decimate [some 7, some 3] 4 = .ok o ∧ o.length = 4) ∧
     (∃ o, decimateCategorical [some "a", some "b"] 4 = .ok o ∧ o.length = 4)) :=
  ⟨⟨by decide, by decide, by decide, by decide⟩,
    C1_output_length [some 7, some 3] [some "a", some "b"] 4
      (by decide) (by decide) (by decide) (by decide)⟩

/-- C8: decimating a zero-length sequence yields the zero-length output for
every requested width, on both the numeric and the categorical path, never an
error. -/
theorem C8_empty_input (w : Nat) :
    decimate [] w = .ok [] ∧ decimateCategorical ([] : List (Option String)) w = .ok [] :=
  ⟨rfl, rfl⟩

/-- C7 counterexample: on the empty sequence the engine returns the empty
output rather than the typed errors the claim demands for an odd width (3)
and for insufficient data (width 4, 0 < 2 elements). -/
theorem C7_counterexample :
    decimate ([] : List (Option Int)) 3 = .ok [] ∧
    decimate ([] : List (Option Int)) 3 ≠ .error .invalidWidth ∧
    decimate ([] : List (Option Int)) 4 = .ok [] ∧
    decimate ([] : List (Option Int)) 4 ≠ .error .insufficientData := by
  refine ⟨rfl, ?_, rfl, ?_⟩ <;> decide

/-- C7 amended: for every nonempty sequence, a width that is not a positive
even number signals invalidWidth; a positive even width exceeding twice the
length signals insufficientData; and every successful result has length
exactly W -- never a partial result. -/
theorem C7_errors_nonempty (s : List (Option Int)) (hs : s ≠ []) (w : Nat) :
    ((w = 0 ∨ w % 2 ≠ 0) → decimate s w = .error .invalidWidth) ∧
    (0 < w → w % 2 = 0 → s.length < w / 2 → decimate s w = .error .insufficientData) ∧
    (∀ o, decimate s w = .ok o → o.length = w) := by
  have hsl : ¬ s.length = 0 := fun h => hs (List.length_eq_zero.mp h)
  refine ⟨?_, ?_, ?_⟩
  · intro hw
    unfold decimate decimateWith
    rw [if_neg hsl, if_pos hw]
  · intro h0 h2 hlt
    unfold decimate decimateWith
    rw [if_neg hsl, if_neg (by omega : ¬ (w = 0 ∨ w % 2 ≠ 0)), if_pos hlt]
  · intro o ho
    unfold decimate decimateWith at ho
    rw [if_neg hsl] at ho
    by_cases hw : w = 0 ∨ w % 2 ≠ 0
    · rw [if_pos hw] at ho
      exact Except.noConfusion ho
    · rw [if_neg hw] at ho
      by_cases hlt : s.length < w / 2
      · rw [if_pos hlt] at ho
        exact Except.noConfusion ho
      · rw [if_neg hlt] at ho
        cases ho
        refine (length_flatten_two (fun i => reduceNumericBucket_length _) (w / 2)).trans ?_
        omega

/-- C7 amended witness: a one-sample sequence with the odd width 3. -/
theorem C7_errors_nonempty_witness :
    (([some 1] : List (Option Int)) ≠ []) ∧
    (((3 = 0 ∨ 3 % 2 ≠ 0) → decimate [some 1] 3 = .error .invalidWidth) ∧
     (0 < 3 → 3 % 2 = 0 → ([some 1] : List (Option Int)).length < 3 / 2 →
       decimate [some 1] 3 = .error .insufficientData) ∧
     (∀ o, decimate [some 1] 3 = .ok o → o.length = 3)) :=
  ⟨by decide, C7_errors_nonempty [some 1] (by decide) 3⟩

/-- C6: the auto-detecting entry point coincides with the explicit
categorical entry point on every input the Dispatcher classifies as
categorical, that is label sequences and mapped integer codes. -/
theorem C6_dispatch_categorical (d : SeqData) (w : Nat)
    (h : isCategoricalKind d = true) :
    downsample d w = downsample_most_common_value d w := by
  cases d with
  | numeric s => simp [isCategoricalKind] at h
  | labels s => rfl
  | mapped s m => rfl

/-- C6 witness: a one-label sequence at width 2. -/
theorem C6_dispatch_categorical_witness :
    isCategoricalKind (SeqData.labels [some "a"]) = true ∧
    downsample (SeqData.labels [some "a"]) 2 =
      downsample_most_common_value (SeqData.labels [some "a"]) 2 :=
  ⟨rfl, C6_dispatch_categorical (SeqData.labels [some "a"]) 2 rfl⟩

/-- C4: a categorical bucket with at least one present sample yields both
output slots equal to the most frequent present label, ties resolved in
favour of the label of the earliest-occurring sample among the tied labels;
missing samples do not enter the frequency count. -/
theorem C4_mode_both_slots (c : List (Option String)) (hp : c.filterMap id ≠ []) :
    ∃ m, reduceCategoricalBucket c = [some m, some m] ∧
      m ∈ c.filterMap id ∧
      (∀ y ∈ c.filterMap id, (c.filterMap id).count y ≤ (c.filterMap id).count m) ∧
      ∃ pre post, c.filterMap id = pre ++ m :: post ∧
        ∀ a ∈ pre, (c.filterMap id).count a < (c.filterMap id).count m := by
  obtain ⟨m, hmc, hred⟩ := reduceCategoricalBucket_of_present hp
  obtain ⟨hmem, hmax, hsplit⟩ := mostCommon_spec hmc
  exact ⟨m, hred, hmem, hmax, hsplit⟩

/-- C4 witness: evaluation at a bucket whose present samples are
b, a, a, so the mode is a. -/
theorem C4_mode_both_slots_witness :
    ∃ m, reduceCategoricalBucket [some "b", none, some "a", some "a"] = [some m, some m] ∧
      m ∈ ([some "b", none, some "a", some "a"] : List (Option String)).filterMap id ∧
      (∀ y ∈ ([some "b", none, some "a", some "a"] : List (Option String)).filterMap id,
        (([some "b", none, some "a", some "a"] : List (Option String)).filterMap id).count y ≤
          (([some "b", none, some "a", some "a"] : List (Option String)).filterMap id).count m) ∧
      ∃ pre post,
        ([some "b", none, some "a", some "a"] : List (Option String)).filterMap id =
          pre ++ m :: post ∧
        ∀ a ∈ pre,
          (([some "b", none, some "a", some "a"] : List (Option String)).filterMap id).count a <
            (([some "b", none, some "a", some "a"] : List (Option String)).filterMap id).count m :=
  C4_mode_both_slots [some "b", none, some "a", some "a"] (by decide)

theorem drop_append_length (l₁ l₂ : List (Option α)) (i : Nat) :
    (l₁ ++ l₂).drop (l₁.length + i) = l₂.drop i := by
  rw [← List.drop_drop, List.drop_left]

theorem drop_flatten_two {f : Nat → List (Option α)} (hf : ∀ i, (f i).length = 2) :
    ∀ (j n a : Nat), j ≤ n →
      (((List.range' a n).map f).flatten).drop (2 * j) =
        ((List.range' (a + j) (n - j)).map f).flatten := by
  intro j
  induction j with
  | zero => intro n a _; simp
  | succ j ih =>
    intro n a h
    obtain ⟨m, rfl⟩ : ∃ m, n = m + 1 := ⟨n - 1, by omega⟩
    rw [List.range'_succ]
    simp only [List.map_cons, List.flatten_cons]
    rw [(by rw [hf a]; omega : 2 * (j + 1) = (f a).length + 2 * j)]
    rw [drop_append_length]
    have hdrop : (((List.range' (a + 1) m).map f).flatten).drop (2 * j) =
        ((List.range' (a + 1 + j) (m - j)).map f).flatten := ih m (a + 1) (by omega)
    rw [hdrop]
    rw [(by omega : a + 1 + j = a + (j + 1)), (by omega : m - j = m + 1 - (j + 1))]

theorem outPair_flatten {f : Nat → List (Option α)} (hf : ∀ i, (f i).length = 2)
    {n j : Nat} (hj : j < n) :
    outPair (((List.range n).map f).flatten) j = f j := by
  unfold outPair
  rw [List.range_eq_range', drop_flatten_two hf j n 0 (le_of_lt hj)]
  obtain ⟨m, hm⟩ : ∃ m, n - j = m + 1 := ⟨n - j - 1, by omega⟩
  rw [(by omega : 0 + j = j), hm, List.range'_succ]
  simp only [List.map_cons, List.flatten_cons]
  exact List.take_left' (hf j)

/-- C2: in every bucket of the numeric path holding at least one present
sample, the two output slots are the bucket's minimal and maximal present
values, placed in the order of the indices at which each extreme first
occurs: the maximum comes first exactly when its earliest occurrence precedes
the minimum's earliest occurrence, and ties on the winning value are resolved
to the earliest-occurring index. -/
theorem C2_bucket_extrema_ordered (s : List (Option Int)) (w j : Nat)
    (h0 : 0 < w) (h2 : w % 2 = 0) (hs : w / 2 ≤ s.length) (hj : j < w / 2)
    (hp : presentIdx (bucketOf s (w / 2) j) ≠ []) :
    ∃ o pmin pmax,
      decimate s w = .ok o ∧
      pmin ∈ presentIdx (bucketOf s (w / 2) j) ∧
      pmax ∈ presentIdx (bucketOf s (w / 2) j) ∧
      (∀ p ∈ presentIdx (bucketOf s (w / 2) j), pmin.2 ≤ p.2 ∧ p.2 ≤ pmax.2) ∧
      (∀ p ∈ presentIdx (bucketOf s (w / 2) j), p.2 = pmin.2 → pmin.1 ≤ p.1) ∧
      (∀ p ∈ presentIdx (bucketOf s (w / 2) j), p.2 = pmax.2 → pmax.1 ≤ p.1) ∧
      outPair o j = if pmax.1 < pmin.1
        then [some pmax.2, some pmin.2] else [some pmin.2, some pmax.2] := by
  obtain ⟨pmin, pmax, hmin, hmax, hred⟩ := reduceNumericBucket_of_present hp
  refine ⟨_, pmin, pmax, decimateWith_eq_ok h0 h2 hs,
    argMinBy_mem hmin, argMaxBy_mem hmax, ?_,
    argMinBy_earliest (presentIdx_pairwise _) hmin,
    argMaxBy_earliest (presentIdx_pairwise _) hmax, ?_⟩
  · intro p hp'
    exact ⟨argMinBy_le hmin p hp', argMaxBy_ge hmax p hp'⟩
  · rw [outPair_flatten (fun i => reduceNumericBucket_length _) hj, hred]
    rfl

/-- C2 witness: sequence 1, 5, 2, 0 at width 4; bucket 0 holds 1 and 5 with
the minimum occurring first. -/
theorem C2_bucket_extrema_ordered_witness :
    (0 < 4 ∧ 4 % 2 = 0 ∧ 4 / 2 ≤ ([some 1, some 5, some 2, some 0] : List (Option Int)).length ∧
      0 < 4 / 2 ∧ presentIdx (bucketOf ([some 1, some 5, some 2, some 0] : List (Option Int)) (4 / 2) 0) ≠ []) ∧
    (∃ o pmin pmax,
      decimate [some 1, some 5, some 2, some 0] 4 = .ok o ∧
      pmin ∈ presentIdx (bucketOf ([some 1, some 5, some 2, some 0] : List (Option Int)) (4 / 2) 0) ∧
      pmax ∈ presentIdx (bucketOf ([some 1, some 5, some 2, some 0] : List (Option Int)) (4 / 2) 0) ∧
      (∀ p ∈ presentIdx (bucketOf ([some 1, some 5, some 2, some 0] : List (Option Int)) (4 / 2) 0),
        pmin.2 ≤ p.2 ∧ p.2 ≤ pmax.2) ∧
      (∀ p ∈ presentIdx (bucketOf ([some 1, some 5, some 2, some 0] : List (Option Int)) (4 / 2) 0),
        p.2 = pmin.2 → pmin.1 ≤ p.1) ∧
      (∀ p ∈ presentIdx (bucketOf ([some 1, some 5, some 2, some 0] : List (Option Int)) (4 / 2) 0),
        p.2 = pmax.2 → pmax.1 ≤ p.1) ∧
      outPair o 0 = if pmax.1 < pmin.1
        then [some pmax.2, some pmin.2] else [some pmin.2, some pmax.2]) :=
  ⟨⟨by decide, by decide, by decide, by decide, by decide⟩,
    C2_bucket_extrema_ordered [some 1, some 5, some 2, some 0] 4 0
      (by decide) (by decide) (by decide) (by decide) (by decide)⟩

theorem bucketStart_of_mod_zero {N B : Nat} (hr : N % B = 0) (i : Nat) :
    bucketStart N B i = i * (N / B) := by
  unfold bucketStart
  rw [hr]
  simp

theorem bucketSize_of_mod_zero {N B : Nat} (hr : N % B = 0) (i : Nat) :
    bucketSize N B i = N / B := by
  unfold bucketSize
  rw [hr]
  simp

theorem bucketOf_reverse {s : List (Option Int)} {B j : Nat}
    (hdvd : B ∣ s.length) (hj : j < B) :
    bucketOf s.reverse B (B - 1 - j) = (bucketOf s B j).reverse := by
  have hr : s.length % B = 0 := Nat.mod_eq_zero_of_dvd hdvd
  have hm : B * (s.length / B) = s.length := Nat.mul_div_cancel' hdvd
  have hjm : (j + 1) * (s.length / B) ≤ s.length :=
    le_of_le_of_eq (Nat.mul_le_mul_right (s.length / B) hj) hm
  have ha : (B - 1 - j) * (s.length / B) = s.length - (j + 1) * (s.length / B) := by
    rw [(by omega : B - 1 - j = B - (j + 1)), Nat.sub_mul, hm]
  have hXm : (j + 1) * (s.length / B) - s.length / B = j * (s.length / B) := by
    rw [Nat.succ_mul, Nat.add_sub_cancel]
  unfold bucketOf
  rw [List.length_reverse, bucketStart_of_mod_zero hr, bucketSize_of_mod_zero hr,
    bucketStart_of_mod_zero hr, bucketSize_of_mod_zero hr, ha, List.drop_reverse,
    Nat.sub_sub_self hjm, List.take_reverse, List.length_take,
    Nat.min_eq_left hjm, hXm, List.take_drop, (Nat.succ_mul j (s.length / B)).symm]

theorem mem_filterMap_id_reverse {b : List (Option Int)} {v : Int} :
    v ∈ b.reverse.filterMap id ↔ v ∈ b.filterMap id := by
  rw [List.filterMap_reverse, List.mem_reverse]

theorem orderPair_multiset (p q : Nat × Int) :
    Multiset.ofList (orderPair p q) = some p.2 ::ₘ some q.2 ::ₘ 0 := by
  unfold orderPair
  split
  · rw [← Multiset.cons_coe, ← Multiset.cons_coe, Multiset.coe_nil]
    exact Multiset.cons_swap _ _ _
  · rw [← Multiset.cons_coe, ← Multiset.cons_coe, Multiset.coe_nil]

theorem reduceNumericBucket_reverse_multiset (b : List (Option Int)) :
    Multiset.ofList (reduceNumericBucket b.reverse) =
      Multiset.ofList (reduceNumericBucket b) := by
  by_cases hp : b.filterMap id = []
  · have hp' : b.reverse.filterMap id = [] := by
      rw [List.filterMap_reverse, hp]
      rfl
    rw [reduceNumericBucket_of_empty ((presentIdx_eq_nil_iff _).mpr hp),
      reduceNumericBucket_of_empty ((presentIdx_eq_nil_iff _).mpr hp')]
  · have hp' : b.reverse.filterMap id ≠ [] := by
      rw [List.filterMap_reverse]
      simpa using hp
    obtain ⟨pmin, pmax, hmin, hmax, hred⟩ :=
      reduceNumericBucket_of_present (fun hn => hp ((presentIdx_eq_nil_iff _).mp hn))
    obtain ⟨pmin', pmax', hmin', hmax', hred'⟩ :=
      reduceNumericBucket_of_present (fun hn => hp' ((presentIdx_eq_nil_iff _).mp hn))
    have hminv : pmin'.2 = pmin.2 := by
      apply le_antisymm
      · obtain ⟨p, hpm, hpv⟩ := exists_presentIdx_of_val
          (mem_filterMap_id_reverse.mpr (snd_mem_of_mem_presentIdx (argMinBy_mem hmin)))
        exact hpv ▸ argMinBy_le hmin' p hpm
      · obtain ⟨p, hpm, hpv⟩ := exists_presentIdx_of_val
          (mem_filterMap_id_reverse.mp (snd_mem_of_mem_presentIdx (argMinBy_mem hmin')))
        exact hpv ▸ argMinBy_le hmin p hpm
    have hmaxv : pmax'.2 = pmax.2 := by
      apply le_antisymm
      · obtain ⟨p, hpm, hpv⟩ := exists_presentIdx_of_val
          (mem_filterMap_id_reverse.mp (snd_mem_of_mem_presentIdx (argMaxBy_mem hmax')))
        exact hpv ▸ argMaxBy_ge hmax p hpm
      · obtain ⟨p, hpm, hpv⟩ := exists_presentIdx_of_val
          (mem_filterMap_id_reverse.mpr (snd_mem_of_mem_presentIdx (argMaxBy_mem hmax)))
        exact hpv ▸ argMaxBy_ge hmax' p hpm
    rw [hred, hred', orderPair_multiset, orderPair_multiset, hminv, hmaxv]

theorem outPair_reverse_flatten {f : Nat → List (Option Int)}
    (hf : ∀ i, (f i).length = 2) {n j : Nat} (hj : j < n) :
    outPair ((((List.range n).map f).flatten).reverse) j = (f (n - 1 - j)).reverse := by
  have h1 : (((List.range n).map f).flatten).reverse =
      ((List.range n).map fun i => (f (n - 1 - i)).reverse).flatten := by
    rw [List.reverse_flatten, ← List.map_reverse, ← List.map_reverse,
      List.range_eq_range', List.reverse_range', List.map_map, List.map_map]
    simp [Function.comp_def]
    rw [List.range_eq_range']
  rw [h1]
  exact outPair_flatten (fun i => by rw [List.length_reverse]; exact hf _) hj

theorem ofList_reverse_eq (l : List (Option Int)) :
    Multiset.ofList l.reverse = Multiset.ofList l :=
  Quot.sound (List.reverse_perm l)

/-- C9 counterexample: for S = 1, 5, 2 at width 4 the bucket sizes are 2 and
1, so bucket 0 of decimate(S, 4) holds the values 1 and 5 while bucket 0 of
the reversed output of decimate(reverse S, 4) holds 1 twice -- the multisets
of extreme values per corresponding bucket differ. -/
theorem C9_counterexample :
    decimate [some 1, some 5, some 2] 4 = .ok [some 1, some 5, some 2, some 2] ∧
    decimate ([some 1, some 5, some 2] : List (Option Int)).reverse 4 =
      .ok [some 2, some 5, some 1, some 1] ∧
    Multiset.ofList (outPair ([some 1, some 5, some 2, some 2] : List (Option Int)) 0) ≠
      Multiset.ofList
        (outPair (([some 2, some 5, some 1, some 1] : List (Option Int)).reverse) 0) := by
  refine ⟨by decide, by decide, by decide⟩

/-- C9 amended: reversal symmetry holds whenever the bucket count W/2 divides
the sequence length (so that corresponding buckets cover mirrored index
ranges): decimating S and decimating the reverse of S, then reversing the
second output, yields the same multiset of extreme values in each
corresponding bucket. -/
theorem C9_reversal_symmetry (s : List (Option Int)) (w : Nat)
    (h0 : 0 < w) (h2 : w % 2 = 0) (hs : w / 2 ≤ s.length) (hdvd : w / 2 ∣ s.length) :
    ∃ o1 o2, decimate s w = .ok o1 ∧ decimate s.reverse w = .ok o2 ∧
      ∀ j, j < w / 2 →
        Multiset.ofList (outPair o1 j) = Multiset.ofList (outPair o2.reverse j) := by
  have hs' : w / 2 ≤ s.reverse.length := by
    rw [List.length_reverse]
    exact hs
  refine ⟨_, _, decimateWith_eq_ok h0 h2 hs, decimateWith_eq_ok h0 h2 hs', ?_⟩
  intro j hj
  rw [outPair_flatten (fun i => reduceNumericBucket_length _) hj,
    outPair_reverse_flatten (fun i => reduceNumericBucket_length _) hj,
    ofList_reverse_eq, bucketOf_reverse hdvd hj]
  exact (reduceNumericBucket_reverse_multiset _).symm

/-- C9 amended witness: the four-sample sequence 1, 7, 3, 2 at width 4, whose
length is divisible by the bucket count 2. -/
theorem C9_reversal_symmetry_witness :
    (0 < 4 ∧ 4 % 2 = 0 ∧ 4 / 2 ≤ ([some 1, some 7, some 3, some 2] : List (Option Int)).length ∧
      4 / 2 ∣ ([some 1, some 7, some 3, some 2] : List (Option Int)).length) ∧
    (∃ o1 o2, decimate [some 1, some 7, some 3, some 2] 4 = .ok o1 ∧
      decimate ([some 1, some 7, some 3, some 2] : List (Option Int)).reverse 4 = .ok o2 ∧
      ∀ j, j < 4 / 2 →
        Multiset.ofList (outPair o1 j) = Multiset.ofList (outPair o2.reverse j)) :=
  ⟨⟨by decide, by decide, by decide, by decide⟩,
    C9_reversal_symmetry [some 1, some 7, some 3, some 2] 4
      (by decide) (by decide) (by decide) (by decide)⟩

end FDA

namespace Compat

/-- Flight data format objects, as `compatibility.open` can produce or receive
them: a `FlightDataFile` opened from a path, an empty object instantiated from
a `FlightDataFormat` subclass, or any other already-instantiated object. -/
inductive FlightDataFormat where
  | flightDataFile (path : String)
  | instanceOf (className : String)
  | obj (tag : Nat)
  deriving DecidableEq

/-- The argument shapes `compatibility.open` distinguishes by runtime type
inspection: a string path, an already-instantiated `FlightDataFormat` object,
a class object (which is or is not a `FlightDataFormat` subclass), or any
other value. -/
inductive OpenSource where
  | str (path : String)
  | inst (o : FlightDataFormat)
  | cls (className : String) (isSubclassOfFDF : Bool)
  | otherVal (tag : Nat)

/-- Embedding of `open` from `flightdataaccessor/formats/compatibility.py`:
a string path opens a `FlightDataFile`; an already-instantiated
`FlightDataFormat` object is returned unchanged; a `FlightDataFormat` subclass
is instantiated empty; anything else raises `ValueError`. -/
def compatibility_open : OpenSource → Except String FlightDataFormat
  | .str p => .ok (.flightDataFile p)
  | .inst o => .ok o
  | .cls c true => .ok (.instanceOf c)
  | .cls _ false => .error "ValueError"
  | .otherVal _ => .error "ValueError"

/-- C10: `open` returns an already-instantiated FlightDataFormat argument
unchanged, and is therefore idempotent on its own successful results:
re-opening the object a call produced gives the same result again. -/
theorem C10_open_instance_idempotent (o : FlightDataFormat) :
    compatibility_open (OpenSource.inst o) = .ok o ∧
    ∀ src, compatibility_open src = .ok o →
      compatibility_open (OpenSource.inst o) = compatibility_open src := by
  refine ⟨rfl, ?_⟩
  intro src h
  rw [h]
  rfl

/-- C10 witness: a FlightDataFile instance obtained by opening a path. -/
theorem C10_open_instance_idempotent_witness :
    (compatibility_open (OpenSource.inst (FlightDataFormat.flightDataFile "data.hdf5")) =
      .ok (FlightDataFormat.flightDataFile "data.hdf5")) ∧
    (compatibility_open (OpenSource.str "data.hdf5") =
      .ok (FlightDataFormat.flightDataFile "data.hdf5")) ∧
    (compatibility_open (OpenSource.inst (FlightDataFormat.flightDataFile "data.hdf5")) =
      compatibility_open (OpenSource.str "data.hdf5")) :=
  ⟨(C10_open_instance_idempotent (FlightDataFormat.flightDataFile "data.hdf5")).1, rfl,
    (C10_open_instance_idempotent (FlightDataFormat.flightDataFile "data.hdf5")).2
      (OpenSource.str "data.hdf5") rfl⟩

end Compat
